import Mathlib

/-!
Shallow embedding of `scripts/preprocess_bgs_pdf.py`.

Strings are modelled as `List Char`.  Python regular-expression text
operations are modelled by executable Lean functions; a small backtracking
matcher (structurally recursive, hence kernel-evaluable) models the three
entity patterns.  Floats are modelled by real numbers (`math.log` becomes
`Real.log`).
-/

namespace BGS

/-- Source constant: `CHUNK_SIZE, OVERLAP = 900, 150`. -/
def CHUNK_SIZE : Nat := 900

/-- Source constant: `CHUNK_SIZE, OVERLAP = 900, 150`. -/
def OVERLAP : Nat := 150

/-- Python regex `\s` (whitespace), modelled for the ASCII range
(Python additionally matches rare Unicode whitespace code points). -/
def isPySpace (c : Char) : Bool :=
  c = ' ' || c = '\t' || c = '\n' || c = '\r' || c = '\x0b' || c = '\x0c'

/-- Models `re.sub(r"\s+", " ", s)`: every maximal whitespace run becomes a single
space.  The boolean accumulator records whether the previous character was
whitespace (i.e. whether we are inside a run that already emitted its space). -/
def collapseWSAux : Bool → List Char → List Char
  | _, [] => []
  | prevSp, c :: cs =>
    if isPySpace c then
      if prevSp then collapseWSAux true cs else ' ' :: collapseWSAux true cs
    else c :: collapseWSAux false cs

/-- Models `re.sub(r"\s+", " ", s)`. -/
def collapseWS (l : List Char) : List Char := collapseWSAux false l

/-- Python `str.strip()`: drop leading and trailing whitespace. -/
def strip (l : List Char) : List Char :=
  ((l.dropWhile isPySpace).reverse.dropWhile isPySpace).reverse

/-- Source: `def clean(s): return re.sub(r"\s+"," ",s or "").strip()`. -/
def clean (s : List Char) : List Char := strip (collapseWS s)

/-- Characters kept by `re.sub(r"[^a-z0-9\s\-]"," ", ...)`:
lowercase ASCII letter, digit, whitespace or hyphen. -/
def keepTok (c : Char) : Bool :=
  ('a' ≤ c && c ≤ 'z') || ('0' ≤ c && c ≤ '9') || isPySpace c || c = '-'

/-- Python `str.split()` (no argument): split on whitespace runs, dropping
empty pieces.  The accumulator holds the current word, reversed. -/
def splitWSAux : List Char → List Char → List (List Char)
  | cur, [] => if cur.isEmpty then [] else [cur.reverse]
  | cur, c :: cs =>
    if isPySpace c then
      if cur.isEmpty then splitWSAux [] cs else cur.reverse :: splitWSAux [] cs
    else splitWSAux (c :: cur) cs

/-- Python `str.split()`. -/
def splitWS (l : List Char) : List (List Char) := splitWSAux [] l

/-- Source: `def toks(s): s = re.sub(r"[^a-z0-9\s\-]"," ",(s or "").lower());
    return [t for t in s.split() if len(t)>2]` -/
def toks (s : List Char) : List (List Char) :=
  let s2 := (s.map Char.toLower).map (fun c => if keepTok c then c else ' ')
  (splitWS s2).filter (fun t => 2 < t.length)

/-- Character class `[\.!\?]`. -/
def isSentPunct (c : Char) : Bool := c = '.' || c = '!' || c = '?'

/-- Models `re.search(r"[\.!\?]\s", ext)`, returning `m.end()` of the first
(leftmost) match: the index just past the whitespace character. -/
def sentRe : List Char → Option Nat
  | a :: b :: rest =>
    if isSentPunct a && isPySpace b then some 2
    else (sentRe (b :: rest)).map (· + 1)
  | _ => none

theorem sentRe_bounds : ∀ (l : List Char) (k : Nat),
    sentRe l = some k → 2 ≤ k ∧ k ≤ l.length := by
  intro l
  induction l with
  | nil => intro k h; simp [sentRe] at h
  | cons a tl ih =>
    intro k h
    cases tl with
    | nil => simp [sentRe] at h
    | cons b rest =>
      rw [sentRe] at h
      by_cases hc : (isSentPunct a && isPySpace b) = true
      · rw [if_pos hc] at h
        have hk : k = 2 := by
          have := Option.some.inj h
          omega
        subst hk
        simp [List.length_cons]
      · rw [if_neg hc] at h
        cases ho : sentRe (b :: rest) with
        | none => rw [ho] at h; simp at h
        | some k' =>
          rw [ho] at h
          simp at h
          have hb := ih k' ho
          simp [List.length_cons] at hb ⊢
          omega

/-- The raw cutoff of a window starting at `i`:
`end = min(i+CHUNK_SIZE, len(text))`. -/
def rawEnd (text : List Char) (i : Nat) : Nat :=
  min (i + CHUNK_SIZE) text.length

/-- One loop step of `chunk`: from window start `i`, the window end after the
raw cutoff and the sentence-snap extension
`ext = text[end:end+120]; m = re.search(r"[\.!\?]\s", ext);
if m: end += m.end()`. -/
def nextEnd (text : List Char) (i : Nat) : Nat :=
  match sentRe ((text.drop (rawEnd text i)).take 120) with
  | some k => rawEnd text i + k
  | none => rawEnd text i

theorem nextEnd_ge (text : List Char) (i : Nat) :
    min (i + CHUNK_SIZE) text.length ≤ nextEnd text i := by
  unfold nextEnd rawEnd
  split
  · omega
  · omega

theorem nextEnd_le_len (text : List Char) (i : Nat) :
    nextEnd text i ≤ text.length := by
  unfold nextEnd rawEnd
  split
  next k h =>
    have hb := (sentRe_bounds _ _ h).2
    simp only [List.length_take, List.length_drop, rawEnd] at hb
    omega
  next h => omega

theorem nextEnd_le (text : List Char) (i : Nat) :
    nextEnd text i ≤ min (i + CHUNK_SIZE) text.length + 120 := by
  unfold nextEnd rawEnd
  split
  next k h =>
    have hb := (sentRe_bounds _ _ h).2
    simp only [List.length_take, List.length_drop, rawEnd] at hb
    omega
  next h => omega

/-- The window spans `(start, end)` produced by the `while` loop of `chunk`,
starting at position `i` (ghost data for the windows of `chunkFrom`). -/
def chunkSpans (text : List Char) (i : Nat) : List (Nat × Nat) :=
  if i < text.length then
    let e := nextEnd text i
    if text.length ≤ e then [(i, e)]
    else (i, e) :: chunkSpans text (e - OVERLAP)
  else []
termination_by text.length - i
decreasing_by
  have hge := nextEnd_ge text i
  simp only [CHUNK_SIZE, OVERLAP] at *
  omega

/-- The `while` loop of `chunk`, producing the window texts `text[i:end]`
(the `page` field, constant across the loop, is added by `chunk` itself). -/
def chunkFrom (text : List Char) (i : Nat) : List (List Char) :=
  if i < text.length then
    let e := nextEnd text i
    if text.length ≤ e then [(text.drop i).take (e - i)]
    else (text.drop i).take (e - i) :: chunkFrom text (e - OVERLAP)
  else []
termination_by text.length - i
decreasing_by
  have hge := nextEnd_ge text i
  simp only [CHUNK_SIZE, OVERLAP] at *
  omega

/-- Source: `def chunk(text, page)`: normalize, then emit `{"page": page, "text": w}`
for each window `w`. -/
def chunk (text : List Char) (page : Nat) : List (Nat × List Char) :=
  (chunkFrom (clean text) 0).map (fun w => (page, w))

theorem CHUNK_SIZE_eq : CHUNK_SIZE = 900 := rfl

theorem OVERLAP_eq : OVERLAP = 150 := rfl

theorem chunkSpans_eq (text : List Char) (i : Nat) :
    chunkSpans text i =
      if i < text.length then
        if text.length ≤ nextEnd text i then [(i, nextEnd text i)]
        else (i, nextEnd text i) :: chunkSpans text (nextEnd text i - OVERLAP)
      else [] := by
  rw [chunkSpans]

theorem chunkFrom_eq (text : List Char) (i : Nat) :
    chunkFrom text i =
      if i < text.length then
        if text.length ≤ nextEnd text i then [(text.drop i).take (nextEnd text i - i)]
        else (text.drop i).take (nextEnd text i - i) :: chunkFrom text (nextEnd text i - OVERLAP)
      else [] := by
  rw [chunkFrom]

/-- Induction principle following the control flow of the `while` loop of
`chunk`: stopped (`i ≥ len`), final window (`end ≥ len`), and continuing
window (`i = end - OVERLAP` next). -/
theorem chunkLoop_induction (text : List Char) (P : Nat → Prop)
    (base : ∀ i, ¬ i < text.length → P i)
    (last : ∀ i, i < text.length → text.length ≤ nextEnd text i → P i)
    (step : ∀ i, i < text.length → ¬ text.length ≤ nextEnd text i →
      P (nextEnd text i - OVERLAP) → P i) :
    ∀ i, P i := by
  intro i
  generalize hm : text.length - i = m
  induction m using Nat.strong_induction_on generalizing i with
  | _ m ih =>
    by_cases h1 : i < text.length
    · by_cases h2 : text.length ≤ nextEnd text i
      · exact last i h1 h2
      · refine step i h1 h2 (ih (text.length - (nextEnd text i - OVERLAP)) ?_ _ rfl)
        have := nextEnd_ge text i
        simp only [CHUNK_SIZE_eq, OVERLAP_eq] at *
        omega
    · exact base i h1

theorem chunkFrom_eq_spans (text : List Char) (i : Nat) :
    chunkFrom text i =
      (chunkSpans text i).map (fun p => (text.drop p.1).take (p.2 - p.1)) := by
  induction i using chunkLoop_induction text with
  | base i h1 => rw [chunkFrom_eq, chunkSpans_eq, if_neg h1, if_neg h1]; rfl
  | last i h1 h2 => rw [chunkFrom_eq, chunkSpans_eq, if_pos h1, if_pos h1, if_pos h2, if_pos h2]; rfl
  | step i h1 h2 ih =>
    rw [chunkFrom_eq, chunkSpans_eq, if_pos h1, if_pos h1, if_neg h2, if_neg h2,
      List.map_cons, ih]

/-- Bounds on every span produced from start position `i`:
starts at or after `i`, non-degenerate, never past the end of the text, and
at most `CHUNK_SIZE + 120` long. -/
theorem chunkSpans_mem_bounds (text : List Char) (i : Nat) :
    ∀ sp ∈ chunkSpans text i,
      i ≤ sp.1 ∧ sp.1 < sp.2 ∧ sp.2 ≤ text.length ∧
        sp.2 ≤ sp.1 + CHUNK_SIZE + 120 := by
  induction i using chunkLoop_induction text with
  | base i h1 =>
    rw [chunkSpans_eq, if_neg h1]
    intro sp h
    simp at h
  | last i h1 h2 =>
    rw [chunkSpans_eq, if_pos h1, if_pos h2]
    intro sp h
    simp at h
    subst h
    have hge := nextEnd_ge text i
    have hll := nextEnd_le_len text i
    have hle := nextEnd_le text i
    simp only [CHUNK_SIZE_eq] at *
    omega
  | step i h1 h2 ih =>
    rw [chunkSpans_eq, if_pos h1, if_neg h2]
    intro sp h
    have hge := nextEnd_ge text i
    have hll := nextEnd_le_len text i
    have hle := nextEnd_le text i
    rcases List.mem_cons.mp h with h | h
    · subst h
      simp only [CHUNK_SIZE_eq] at *
      omega
    · have := ih sp h
      simp only [CHUNK_SIZE_eq, OVERLAP_eq] at *
      omega

theorem chunkSpans_ne_nil (text : List Char) (i : Nat) (h1 : i < text.length) :
    chunkSpans text i ≠ [] := by
  rw [chunkSpans_eq, if_pos h1]
  split <;> simp

theorem chunkSpans_head (text : List Char) (i : Nat) (h1 : i < text.length) :
    ∃ tl, chunkSpans text i = (i, nextEnd text i) :: tl := by
  rw [chunkSpans_eq, if_pos h1]
  split
  · exact ⟨[], rfl⟩
  · exact ⟨_, rfl⟩

/-- Consecutive spans: each later span starts exactly `OVERLAP` before the
previous span's end. -/
theorem chunkSpans_chain (text : List Char) (i : Nat) :
    List.Chain' (fun a b : Nat × Nat => b.1 + OVERLAP = a.2)
      (chunkSpans text i) := by
  induction i using chunkLoop_induction text with
  | base i h1 => rw [chunkSpans_eq, if_neg h1]; exact List.chain'_nil
  | last i h1 h2 => rw [chunkSpans_eq, if_pos h1, if_pos h2]; exact List.chain'_singleton _
  | step i h1 h2 ih =>
    rw [chunkSpans_eq, if_pos h1, if_neg h2]
    have h3 : nextEnd text i - OVERLAP < text.length := by
      have := nextEnd_ge text i
      simp only [CHUNK_SIZE_eq, OVERLAP_eq] at *
      omega
    obtain ⟨tl, htl⟩ := chunkSpans_head text (nextEnd text i - OVERLAP) h3
    rw [htl]
    rw [htl] at ih
    refine List.Chain'.cons ?_ ih
    have := nextEnd_ge text i
    simp only [CHUNK_SIZE_eq, OVERLAP_eq] at *
    omega

/-- The last span ends exactly at the text's length. -/
theorem chunkSpans_last (text : List Char) (i : Nat) :
    i < text.length →
      ∃ s, (chunkSpans text i).getLast? = some (s, text.length) := by
  induction i using chunkLoop_induction text with
  | base i h1 => intro h; exact absurd h h1
  | last i h1 h2 =>
    intro _
    rw [chunkSpans_eq, if_pos h1, if_pos h2]
    have hll := nextEnd_le_len text i
    have he : nextEnd text i = text.length := le_antisymm hll h2
    exact ⟨i, by rw [he]; rfl⟩
  | step i h1 h2 ih =>
    intro _
    rw [chunkSpans_eq, if_pos h1, if_neg h2]
    have h3 : nextEnd text i - OVERLAP < text.length := by
      have := nextEnd_ge text i
      simp only [CHUNK_SIZE_eq, OVERLAP_eq] at *
      omega
    obtain ⟨s, hs⟩ := ih h3
    refine ⟨s, ?_⟩
    have hmem : (s, text.length) ∈
        (chunkSpans text (nextEnd text i - OVERLAP)).getLast? := hs
    simpa [Option.mem_def] using List.mem_getLast?_cons hmem

/-- Every span except the last ends strictly before the text's length
(the loop stops exactly when a window's end reaches the length). -/
theorem chunkSpans_dropLast (text : List Char) (i : Nat) :
    ∀ sp ∈ (chunkSpans text i).dropLast, sp.2 < text.length := by
  induction i using chunkLoop_induction text with
  | base i h1 => rw [chunkSpans_eq, if_neg h1]; intro sp h; simp at h
  | last i h1 h2 => rw [chunkSpans_eq, if_pos h1, if_pos h2]; intro sp h; simp at h
  | step i h1 h2 ih =>
    rw [chunkSpans_eq, if_pos h1, if_neg h2]
    intro sp h
    have h3 : nextEnd text i - OVERLAP < text.length := by
      have := nextEnd_ge text i
      simp only [CHUNK_SIZE_eq, OVERLAP_eq] at *
      omega
    obtain ⟨tl, htl⟩ := chunkSpans_head text (nextEnd text i - OVERLAP) h3
    rw [htl, List.dropLast_cons₂] at h
    rcases List.mem_cons.mp h with h | h
    · subst h; exact not_le.mp h2
    · exact ih sp (by rw [htl]; exact h)

/-- Every position of the text is covered by some span: no gaps. -/
theorem chunkSpans_cover (text : List Char) (i : Nat) :
    ∀ n, i ≤ n → n < text.length →
      ∃ sp ∈ chunkSpans text i, sp.1 ≤ n ∧ n < sp.2 := by
  induction i using chunkLoop_induction text with
  | base i h1 => intro n hin hn; exfalso; omega
  | last i h1 h2 =>
    intro n hin hn
    refine ⟨(i, nextEnd text i), ?_, hin, by omega⟩
    rw [chunkSpans_eq, if_pos h1, if_pos h2]
    simp
  | step i h1 h2 ih =>
    intro n hin hn
    by_cases hne : n < nextEnd text i
    · refine ⟨(i, nextEnd text i), ?_, hin, hne⟩
      rw [chunkSpans_eq, if_pos h1, if_neg h2]
      simp
    · obtain ⟨sp, hmem, hs1, hs2⟩ := ih n (by omega) hn
      refine ⟨sp, ?_, hs1, hs2⟩
      rw [chunkSpans_eq, if_pos h1, if_neg h2]
      exact List.mem_cons_of_mem _ hmem

/-- A non-empty text no longer than `CHUNK_SIZE` yields a single window,
the whole text. -/
theorem chunkFrom_short (t : List Char) (h0 : t ≠ []) (hlt : t.length ≤ CHUNK_SIZE) :
    chunkFrom t 0 = [t] := by
  have hlen : 0 < t.length := List.length_pos.mpr h0
  have he : nextEnd t 0 = t.length := by
    unfold nextEnd rawEnd
    have hm : min (0 + CHUNK_SIZE) t.length = t.length := by omega
    rw [hm, List.drop_length]
    rfl
  rw [chunkFrom_eq, if_pos hlen, he, if_pos (le_refl _)]
  simp

theorem sentRe_none : ∀ l : List Char, (∀ c ∈ l, isSentPunct c = false) →
    sentRe l = none := by
  intro l
  induction l with
  | nil => intro _; rfl
  | cons a tl ih =>
    intro h
    cases tl with
    | nil => rfl
    | cons b rest =>
      rw [sentRe]
      have ha : isSentPunct a = false := h a (List.mem_cons_self a _)
      rw [if_neg (by simp [ha])]
      rw [ih (fun c hc => h c (List.mem_cons_of_mem _ hc))]
      rfl

set_option maxRecDepth 8192 in
/-- Scenario computation: a 1000-character page of letters (no sentence-snap)
gives exactly the spans `[0, 900)` and `[750, 1000)`. -/
theorem chunkSpans_repl1000 :
    chunkSpans (List.replicate 1000 'a') 0 = [(0, 900), (750, 1000)] := by
  have e0 : nextEnd (List.replicate 1000 'a') 0 = 900 := by decide
  have e1 : nextEnd (List.replicate 1000 'a') 750 = 1000 := by decide
  rw [chunkSpans_eq, e0, OVERLAP_eq]
  simp only [List.length_replicate]
  norm_num
  rw [chunkSpans_eq, e1]
  simp only [List.length_replicate]
  norm_num

/-- C3: the chunker's windows cover the normalized text with no gaps: the
first window starts at position 0; each subsequent window starts at the
previous window's end minus `OVERLAP`; windowing stops exactly when a
window's end reaches the text's length (every non-final span ends strictly
before it, the final one exactly at it); every position of the normalized
text lies in some window span; the window texts are exactly the slices of
the spans; and for a 1000-character page with no sentence-snap extension the
second window starts at character 750. -/
theorem C3_window_coverage (text : List Char) (hne : clean text ≠ []) :
    (∃ tl, chunkSpans (clean text) 0 = (0, nextEnd (clean text) 0) :: tl) ∧
    List.Chain' (fun a b : Nat × Nat => b.1 + OVERLAP = a.2)
      (chunkSpans (clean text) 0) ∧
    (∀ sp ∈ (chunkSpans (clean text) 0).dropLast, sp.2 < (clean text).length) ∧
    (∃ s, (chunkSpans (clean text) 0).getLast? = some (s, (clean text).length)) ∧
    (∀ n, n < (clean text).length →
      ∃ sp ∈ chunkSpans (clean text) 0, sp.1 ≤ n ∧ n < sp.2) ∧
    chunkFrom (clean text) 0 =
      (chunkSpans (clean text) 0).map
        (fun p => ((clean text).drop p.1).take (p.2 - p.1)) ∧
    chunkSpans (List.replicate 1000 'a') 0 = [(0, 900), (750, 1000)] := by
  have hlen : 0 < (clean text).length := List.length_pos.mpr hne
  exact ⟨chunkSpans_head _ 0 hlen, chunkSpans_chain _ 0, chunkSpans_dropLast _ 0,
    chunkSpans_last _ 0 hlen,
    fun n hn => chunkSpans_cover _ 0 n (Nat.zero_le n) hn,
    chunkFrom_eq_spans _ 0, chunkSpans_repl1000⟩

/-- Witness for C3 at the concrete page text "one. two". -/
theorem C3_window_coverage_witness :
    clean "one. two".toList ≠ [] ∧
    ((∃ tl, chunkSpans (clean "one. two".toList) 0 =
        (0, nextEnd (clean "one. two".toList) 0) :: tl) ∧
    List.Chain' (fun a b : Nat × Nat => b.1 + OVERLAP = a.2)
      (chunkSpans (clean "one. two".toList) 0) ∧
    (∀ sp ∈ (chunkSpans (clean "one. two".toList) 0).dropLast,
      sp.2 < (clean "one. two".toList).length) ∧
    (∃ s, (chunkSpans (clean "one. two".toList) 0).getLast? =
      some (s, (clean "one. two".toList).length)) ∧
    (∀ n, n < (clean "one. two".toList).length →
      ∃ sp ∈ chunkSpans (clean "one. two".toList) 0, sp.1 ≤ n ∧ n < sp.2) ∧
    chunkFrom (clean "one. two".toList) 0 =
      (chunkSpans (clean "one. two".toList) 0).map
        (fun p => ((clean "one. two".toList).drop p.1).take (p.2 - p.1)) ∧
    chunkSpans (List.replicate 1000 'a') 0 = [(0, 900), (750, 1000)]) :=
  ⟨by decide, C3_window_coverage _ (by decide)⟩

/-- C4: every chunk text is at most `CHUNK_SIZE + 120` characters long, and
no window end ever exceeds the normalized text's length. -/
theorem C4_chunk_length_bound (text w : List Char)
    (hw : w ∈ chunkFrom (clean text) 0) :
    w.length ≤ CHUNK_SIZE + 120 ∧
      ∀ sp ∈ chunkSpans (clean text) 0, sp.2 ≤ (clean text).length := by
  constructor
  · rw [chunkFrom_eq_spans] at hw
    obtain ⟨sp, hsp, rfl⟩ := List.mem_map.mp hw
    have hb := chunkSpans_mem_bounds (clean text) 0 sp hsp
    simp only [List.length_take, List.length_drop]
    omega
  · intro sp hsp
    exact (chunkSpans_mem_bounds (clean text) 0 sp hsp).2.2.1

/-- Witness for C4 at the concrete page text "hello world". -/
theorem C4_chunk_length_bound_witness :
    clean "hello world".toList ∈ chunkFrom (clean "hello world".toList) 0 ∧
    ((clean "hello world".toList).length ≤ CHUNK_SIZE + 120 ∧
      ∀ sp ∈ chunkSpans (clean "hello world".toList) 0,
        sp.2 ≤ (clean "hello world".toList).length) :=
  ⟨by rw [chunkFrom_short _ (by decide) (by decide)]
      exact List.mem_singleton.mpr rfl,
   C4_chunk_length_bound _ _
     (by rw [chunkFrom_short _ (by decide) (by decide)]
         exact List.mem_singleton.mpr rfl)⟩

/-- C5: an input whose normalized form is empty produces zero windows; an
input whose normalized form is non-empty and shorter than `CHUNK_SIZE`
produces exactly one window, equal to the normalized input. -/
theorem C5_short_text (text : List Char) :
    (clean text = [] → chunkFrom (clean text) 0 = []) ∧
    (clean text ≠ [] → (clean text).length < CHUNK_SIZE →
      chunkFrom (clean text) 0 = [clean text]) := by
  constructor
  · intro h
    rw [h, chunkFrom_eq]
    simp
  · intro h0 hlt
    exact chunkFrom_short _ h0 (le_of_lt hlt)

/-- Witness for C5 at the empty page and at the page "abc". -/
theorem C5_short_text_witness :
    chunkFrom (clean "".toList) 0 = [] ∧
    chunkFrom (clean "abc".toList) 0 = [clean "abc".toList] :=
  ⟨(C5_short_text "".toList).1 (by decide),
   (C5_short_text "abc".toList).2 (by decide) (by decide)⟩

/-- C10: termination progress of the chunk loop: whenever the loop does not
stop (the window end is short of the text's length), the end is at least the
start plus `CHUNK_SIZE`, so the next start `end - OVERLAP` advances by at
least `CHUNK_SIZE - OVERLAP = 750 > 0` characters. -/
theorem C10_loop_progress (text : List Char) (i : Nat)
    (h1 : i < text.length) (h2 : nextEnd text i < text.length) :
    i + CHUNK_SIZE ≤ nextEnd text i ∧
    i + (CHUNK_SIZE - OVERLAP) ≤ nextEnd text i - OVERLAP ∧
    CHUNK_SIZE - OVERLAP = 750 ∧ 0 < CHUNK_SIZE - OVERLAP := by
  have hge := nextEnd_ge text i
  have key : i + CHUNK_SIZE ≤ nextEnd text i := by
    rcases Nat.le_total (i + CHUNK_SIZE) text.length with hc | hc
    · rw [Nat.min_eq_left hc] at hge; exact hge
    · rw [Nat.min_eq_right hc] at hge; omega
  have hck : CHUNK_SIZE = 900 := rfl
  have hov : OVERLAP = 150 := rfl
  refine ⟨key, ?_, by omega, by omega⟩
  omega

set_option maxRecDepth 8192 in
/-- Witness for C10 at a 901-character page of letters, start position 0. -/
theorem C10_loop_progress_witness :
    (0 < (List.replicate 901 'a').length ∧
      nextEnd (List.replicate 901 'a') 0 < (List.replicate 901 'a').length) ∧
    (0 + CHUNK_SIZE ≤ nextEnd (List.replicate 901 'a') 0 ∧
      0 + (CHUNK_SIZE - OVERLAP) ≤ nextEnd (List.replicate 901 'a') 0 - OVERLAP ∧
      CHUNK_SIZE - OVERLAP = 750 ∧ 0 < CHUNK_SIZE - OVERLAP) :=
  ⟨⟨by decide, by decide⟩, C10_loop_progress _ 0 (by decide) (by decide)⟩

/-! ### A small backtracking regex matcher

Models the constructs used by `SYSTEM_PAT`, `FACTION_PAT` and `DATE_PAT`:
literals, single-character classes with counted greedy repetition (every
quantifier in these patterns is applied to a one-character class), word
boundaries `\b`, concatenation and (leftmost-preferred) alternation.  The
matcher is a continuation-passing backtracking search, structurally
recursive over the pattern, trying possibilities in Python `re`'s order
(greedy repetition longest-first, alternatives left to right), returning
the end position of the first overall success. -/

/-- Regex abstract syntax. `cls f lo hi` is a character class repeated
between `lo` and `hi` times (`hi = none`: unbounded). -/
inductive RE where
  | eps
  | cls (f : Char → Bool) (lo : Nat) (hi : Option Nat)
  | wb
  | seq (a b : RE)
  | alt (a b : RE)

/-- Python regex `\w` (word character), ASCII range. -/
def isWordChar (c : Char) : Bool :=
  ('A' ≤ c && c ≤ 'Z') || ('a' ≤ c && c ≤ 'z') || ('0' ≤ c && c ≤ '9') || c = '_'

/-- Python regex `\b`: exactly one side of the position is a word char. -/
def atBoundary (text : List Char) (pos : Nat) : Bool :=
  (decide (0 < pos) &&
    (match text[pos - 1]? with | some c => isWordChar c | none => false)) !=
  (match text[pos]? with | some c => isWordChar c | none => false)

/-- Length of the maximal run of characters satisfying `f` from `pos`. -/
def runLen (text : List Char) (f : Char → Bool) (pos : Nat) : Nat :=
  ((text.drop pos).takeWhile f).length

/-- Backtracking matcher: match the pattern at `pos`, then hand the reached
position to the continuation `k`; the first success (in Python `re`'s
exploration order) wins. -/
def reMatch (text : List Char) : RE → Nat → (Nat → Option Nat) → Option Nat
  | RE.eps, pos, k => k pos
  | RE.wb, pos, k => if atBoundary text pos then k pos else none
  | RE.cls f lo hi, pos, k =>
    let run := runLen text f pos
    let cap := match hi with | some h => min h run | none => run
    if cap < lo then none
    else ((List.range (cap + 1 - lo)).map (fun j => cap - j)).findSome?
           (fun n => k (pos + n))
  | RE.seq a b, pos, k => reMatch text a pos (fun p => reMatch text b p k)
  | RE.alt a b, pos, k =>
    match reMatch text a pos k with
    | some r => some r
    | none => reMatch text b pos k

/-- Leftmost match attempt at a fixed position, returning the end position. -/
def matchAt (text : List Char) (re : RE) (pos : Nat) : Option Nat :=
  reMatch text re pos some

/-- Models `re.findall`: scan left to right; at the first position that matches,
emit the matched text and continue after it (non-overlapping); positions
with no match advance by one.  `fuel` bounds the number of scan steps; it
is initialized to `text.length + 2`, which `findallFrom_fuel` shows is
enough (each step either ends the scan or advances the position). -/
def findallFrom (text : List Char) (re : RE) : Nat → Nat → List (List Char)
  | 0, _ => []
  | fuel + 1, pos =>
    if pos ≤ text.length then
      match matchAt text re pos with
      | some e =>
        if pos < e then
          (text.drop pos).take (e - pos) :: findallFrom text re fuel e
        else findallFrom text re fuel (pos + 1)
      | none => findallFrom text re fuel (pos + 1)
    else []

theorem findallFrom_succ (text : List Char) (re : RE) (fuel pos : Nat) :
    findallFrom text re (fuel + 1) pos =
      if pos ≤ text.length then
        match matchAt text re pos with
        | some e =>
          if pos < e then
            (text.drop pos).take (e - pos) :: findallFrom text re fuel e
          else findallFrom text re fuel (pos + 1)
        | none => findallFrom text re fuel (pos + 1)
      else [] := rfl

/-- Fuel irrelevance: once the fuel covers the remaining scan length, adding
more fuel does not change the result, so `text.length + 2` is a faithful
budget for the unbounded scan of `re.findall`. -/
theorem findallFrom_fuel (text : List Char) (re : RE) :
    ∀ fuel pos, text.length + 1 ≤ fuel + pos →
      findallFrom text re fuel pos = findallFrom text re (fuel + 1) pos := by
  intro fuel
  induction fuel with
  | zero =>
    intro pos h
    rw [findallFrom_succ, if_neg (by omega)]
    rfl
  | succ n ih =>
    intro pos h
    rw [findallFrom_succ, findallFrom_succ]
    by_cases hp : pos ≤ text.length
    · rw [if_pos hp, if_pos hp]
      cases hm : matchAt text re pos with
      | some e =>
        dsimp only
        by_cases hlt : pos < e
        · rw [if_pos hlt, if_pos hlt, ih e (by omega)]
        · rw [if_neg hlt, if_neg hlt, ih (pos + 1) (by omega)]
      | none =>
        dsimp only
        rw [ih (pos + 1) (by omega)]
    · rw [if_neg hp, if_neg hp]

/-- Models `re.findall(pat, s)`.  For `DATE_PAT`, whose single group is the whole
alternation between two zero-width `\b` assertions, `findall`'s
group-extraction returns exactly the matched text, so no separate group
model is needed. -/
def findall (re : RE) (s : List Char) : List (List Char) :=
  findallFrom s re (s.length + 2) 0

/-- Concatenation of a list of patterns. -/
def reSeq (l : List RE) : RE := l.foldr RE.seq RE.eps

/-- Alternation `a|b₁|b₂|...`, tried left to right. -/
def reAlt1 (a : RE) (rest : List RE) : RE := rest.foldl RE.alt a

/-- A literal string pattern. -/
def lit (s : String) : RE :=
  reSeq (s.toList.map (fun c => RE.cls (fun d => d = c) 1 (some 1)))

def asciiUpper (c : Char) : Bool := 'A' ≤ c && c ≤ 'Z'

def asciiLower (c : Char) : Bool := 'a' ≤ c && c ≤ 'z'

def asciiDigit (c : Char) : Bool := '0' ≤ c && c ≤ '9'

/-- Source: `SYSTEM_PAT = r"LTT[- ]?\d{4,5}|[A-Z][a-z]+ Sector [A-Z0-9\- ]+|[A-Z][A-Za-z0-9\- ]{2,}"` -/
def SYSTEM_RE : RE :=
  reAlt1
    (reSeq [lit "LTT", RE.cls (fun c => c = '-' || c = ' ') 0 (some 1),
      RE.cls asciiDigit 4 (some 5)])
    [reSeq [RE.cls asciiUpper 1 (some 1), RE.cls asciiLower 1 none,
      lit " Sector ",
      RE.cls (fun c => asciiUpper c || asciiDigit c || c = '-' || c = ' ') 1 none],
     reSeq [RE.cls asciiUpper 1 (some 1),
      RE.cls (fun c => asciiUpper c || asciiLower c || asciiDigit c || c = '-' || c = ' ')
        2 none]]

/-- Source: `FACTION_PAT = r"Black Sun Crew|Space Force|Oblivion Fleet|Jerome Archer|Alliance|Empire|Federation"` -/
def FACTION_RE : RE :=
  reAlt1 (lit "Black Sun Crew")
    [lit "Space Force", lit "Oblivion Fleet", lit "Jerome Archer",
     lit "Alliance", lit "Empire", lit "Federation"]

/-- Source: `DATE_PAT = r"\b(20\d{2}-\d{2}-\d{2}|[A-Z][a-z]{2,9}\s+\d{1,2},\s+20\d{2})\b"` -/
def DATE_RE : RE :=
  reSeq [RE.wb,
    reAlt1
      (reSeq [lit "20", RE.cls asciiDigit 2 (some 2), lit "-",
        RE.cls asciiDigit 2 (some 2), lit "-", RE.cls asciiDigit 2 (some 2)])
      [reSeq [RE.cls asciiUpper 1 (some 1), RE.cls asciiLower 2 (some 9),
        RE.cls isPySpace 1 none, RE.cls asciiDigit 1 (some 2), lit ",",
        RE.cls isPySpace 1 none, lit "20", RE.cls asciiDigit 2 (some 2)]],
    RE.wb]

/-! ### The pipeline `main()` -/

/-- A record of the chunk store:
`{"id":…, "page":…, "systems":…, "factions":…, "dates":…, "text":…}`. -/
structure ChunkRec where
  id : Nat
  page : Nat
  systems : List (List Char)
  factions : List (List Char)
  dates : List (List Char)
  text : List Char
deriving DecidableEq

/-- Models Python `list(set(xs))`: the distinct elements of `xs`, emitted in
an unspecified order (CPython's set iteration order for strings depends on
the per-process hash seed).  A run of the program corresponds to one fixed
`order` function; distinct runs may use distinct valid `order`s. -/
def SetOrder (order : List (List Char) → List (List Char)) : Prop :=
  ∀ xs, (order xs).Perm xs.dedup

/-- The extracted raw page texts in page order; `none` models an extraction
result that is not a string (`extract_text() or ""` turns it into `""`). -/
def pageRecords (pages : List (Option (List Char))) : List (Nat × List Char) :=
  (List.range pages.length).flatMap
    (fun p => chunk ((pages[p]?.getD none).getD []) (p + 1))

/-- One `chunks.append({...})` record: entity families are
`list(set(re.findall(PAT, t)))`, the id is the length of the accumulator at
append time. -/
def tagChunk (order : List (List Char) → List (List Char)) (k : Nat)
    (pr : Nat × List Char) : ChunkRec :=
  { id := k, page := pr.1,
    systems := order (findall SYSTEM_RE pr.2),
    factions := order (findall FACTION_RE pr.2),
    dates := order (findall DATE_RE pr.2),
    text := pr.2 }

/-- The `chunks` list built by `main()`'s page loop: each produced window is
appended with `id = len(chunks)`. -/
def mainChunks (order : List (List Char) → List (List Char))
    (pages : List (Option (List Char))) : List ChunkRec :=
  (pageRecords pages).foldl (fun acc pr => acc ++ [tagChunk order acc.length pr]) []

theorem foldl_append_tag (order : List (List Char) → List (List Char)) :
    ∀ (prs : List (Nat × List Char)) (acc : List ChunkRec),
      prs.foldl (fun acc pr => acc ++ [tagChunk order acc.length pr]) acc =
        acc ++ (prs.enumFrom acc.length).map (fun e => tagChunk order e.1 e.2) := by
  intro prs
  induction prs with
  | nil => intro acc; simp
  | cons pr rest ih =>
    intro acc
    rw [List.foldl_cons, ih]
    simp [List.enumFrom]

/-- Lemma: the append-with-running-length loop of `main()` indexes the records by their
final position. -/
theorem mainChunks_eq_enum (order : List (List Char) → List (List Char))
    (pages : List (Option (List Char))) :
    mainChunks order pages =
      ((pageRecords pages).enumFrom 0).map (fun e => tagChunk order e.1 e.2) := by
  unfold mainChunks
  rw [foldl_append_tag]
  simp

theorem chunk_nil (pg : Nat) : chunk [] pg = [] := by
  unfold chunk
  have hcl : clean ([] : List Char) = [] := rfl
  rw [hcl, chunkFrom_eq]
  simp

theorem chunk_page (t : List Char) (pg : Nat) : ∀ pr ∈ chunk t pg, pr.1 = pg := by
  intro pr hpr
  unfold chunk at hpr
  obtain ⟨w, _, rfl⟩ := List.mem_map.mp hpr
  rfl

/-- A single page whose normalized text is non-empty and at most
`CHUNK_SIZE` long yields exactly one tagged record. -/
theorem mainChunks_single (order : List (List Char) → List (List Char))
    (t : List Char) (h0 : clean t ≠ []) (hle : (clean t).length ≤ CHUNK_SIZE) :
    mainChunks order [some t] = [tagChunk order 0 (1, clean t)] := by
  have hc : chunk t 1 = [(1, clean t)] := by
    unfold chunk
    rw [chunkFrom_short _ h0 hle]
    rfl
  have hpr : pageRecords [some t] = [(1, clean t)] := by
    unfold pageRecords
    have hr : List.range (List.length [some t]) = [0] := rfl
    rw [hr, List.flatMap_cons, List.flatMap_nil, List.append_nil]
    simpa using hc
  rw [mainChunks_eq_enum, hpr]
  rfl

/-- Pages contribute records in page order: the page numbers along
`pageRecords` are nondecreasing. -/
theorem pageRecords_pairwise (pages : List (Option (List Char))) :
    (pageRecords pages).Pairwise (fun a b => a.1 ≤ b.1) := by
  unfold pageRecords
  rw [List.flatMap_def, List.pairwise_flatten]
  constructor
  · intro l' hl'
    obtain ⟨p, _, rfl⟩ := List.mem_map.mp hl'
    apply List.pairwise_of_forall_mem_list
    intro a ha b hb
    rw [chunk_page _ _ a ha, chunk_page _ _ b hb]
  · rw [List.pairwise_map]
    refine (List.pairwise_lt_range _).imp ?_
    intro p q hpq
    intro x hx y hy
    rw [chunk_page _ _ x hx, chunk_page _ _ y hy]
    omega

theorem mainChunks_length (order : List (List Char) → List (List Char))
    (pages : List (Option (List Char))) :
    (mainChunks order pages).length = (pageRecords pages).length := by
  rw [mainChunks_eq_enum]
  simp

theorem mainChunks_getElem (order : List (List Char) → List (List Char))
    (pages : List (Option (List Char))) (m : Nat)
    (hm : m < (mainChunks order pages).length) :
    ∃ hp : m < (pageRecords pages).length,
      (mainChunks order pages)[m] = tagChunk order m ((pageRecords pages).get ⟨m, hp⟩) := by
  have hp : m < (pageRecords pages).length := by
    rw [mainChunks_length] at hm
    exact hm
  refine ⟨hp, ?_⟩
  rw [List.getElem_of_eq (mainChunks_eq_enum order pages) hm]
  simp [List.getElem_enumFrom]

/-! ### The indexer -/

/-- Source: `ts = set(toks(c["text"]))`: the chunk's deduplicated token set
(represented canonically as the duplicate-free list of first occurrences). -/
def tokset (s : List Char) : List (List Char) := (toks s).dedup

/-- The document-frequency accumulation
`for c in chunks: ts = set(toks(c["text"])); for w in ts: df[w] = df.get(w,0)+1`,
as a function from token to count (absent keys read 0). -/
def dfOf (texts : List (List Char)) : List Char → Nat :=
  texts.foldl (fun df t w => if w ∈ tokset t then df w + 1 else df w) (fun _ => 0)

theorem dfOf_go (texts : List (List Char)) :
    ∀ (g : List Char → Nat) (w : List Char),
      (texts.foldl (fun df t w => if w ∈ tokset t then df w + 1 else df w) g) w =
        g w + texts.countP (fun t => decide (w ∈ tokset t)) := by
  induction texts with
  | nil => intro g w; simp
  | cons t rest ih =>
    intro g w
    rw [List.foldl_cons, ih, List.countP_cons]
    by_cases h : w ∈ tokset t
    · simp [h]
      omega
    · simp [h]

/-- The accumulated counter counts exactly the chunks whose token set
contains the token; per-chunk multiplicity is invisible. -/
theorem dfOf_eq_countP (texts : List (List Char)) (w : List Char) :
    dfOf texts w = texts.countP (fun t => decide (w ∈ toks t)) := by
  unfold dfOf
  rw [dfOf_go]
  simp only [Nat.zero_add]
  apply List.countP_congr
  intro t _
  simp [tokset, List.mem_dedup]

theorem dfOf_le_length (texts : List (List Char)) (w : List Char) :
    dfOf texts w ≤ texts.length := by
  rw [dfOf_eq_countP]
  exact List.countP_le_length _

/-- Source: `idf = {w: math.log((N+1)/(df[w]+1))+1.0 for w in df}` with
`N = len(chunks)`; floats are modelled as reals, `math.log` as `Real.log`
(hence this one definition is not executable). -/
noncomputable def idfOf (texts : List (List Char)) (w : List Char) : ℝ :=
  Real.log (((texts.length : ℝ) + 1) / ((dfOf texts w : ℝ) + 1)) + 1

/-- C1: for every token in the idf mapping (document frequency at least 1),
the idf value follows the smoothed formula, is strictly positive, and is
antitone in document frequency. -/
theorem C1_idf_formula (texts : List (List Char)) (u v : List Char)
    (hu : 0 < dfOf texts u) (hv : 0 < dfOf texts v) :
    idfOf texts u =
      Real.log (((texts.length : ℝ) + 1) / ((dfOf texts u : ℝ) + 1)) + 1 ∧
    0 < idfOf texts u ∧
    (dfOf texts u ≤ dfOf texts v → idfOf texts v ≤ idfOf texts u) := by
  have hle : dfOf texts u ≤ texts.length := dfOf_le_length texts u
  refine ⟨rfl, ?_, ?_⟩
  · have h1 : (1 : ℝ) ≤ ((texts.length : ℝ) + 1) / ((dfOf texts u : ℝ) + 1) := by
      rw [le_div_iff₀ (by positivity)]
      have : (dfOf texts u : ℝ) ≤ (texts.length : ℝ) := Nat.cast_le.mpr hle
      linarith
    have h2 := Real.log_nonneg h1
    unfold idfOf
    linarith
  · intro h
    unfold idfOf
    have hd : ((texts.length : ℝ) + 1) / ((dfOf texts v : ℝ) + 1) ≤
        ((texts.length : ℝ) + 1) / ((dfOf texts u : ℝ) + 1) := by
      apply div_le_div_of_nonneg_left (by positivity) (by positivity)
      have : (dfOf texts u : ℝ) ≤ (dfOf texts v : ℝ) := Nat.cast_le.mpr h
      linarith
    have hlog := Real.log_le_log (by positivity) hd
    linarith

/-- Witness for C1 with the chunk texts "alpha beta gamma" and "beta":
token "gamma" has df 1, token "beta" has df 2. -/
theorem C1_idf_formula_witness :
    (0 < dfOf ["alpha beta gamma".toList, "beta".toList] "gamma".toList ∧
     0 < dfOf ["alpha beta gamma".toList, "beta".toList] "beta".toList) ∧
    (idfOf ["alpha beta gamma".toList, "beta".toList] "gamma".toList =
      Real.log ((((["alpha beta gamma".toList, "beta".toList] : List (List Char)).length : ℝ) + 1) /
        ((dfOf ["alpha beta gamma".toList, "beta".toList] "gamma".toList : ℝ) + 1)) + 1 ∧
    0 < idfOf ["alpha beta gamma".toList, "beta".toList] "gamma".toList ∧
    (dfOf ["alpha beta gamma".toList, "beta".toList] "gamma".toList ≤
        dfOf ["alpha beta gamma".toList, "beta".toList] "beta".toList →
      idfOf ["alpha beta gamma".toList, "beta".toList] "beta".toList ≤
        idfOf ["alpha beta gamma".toList, "beta".toList] "gamma".toList)) :=
  ⟨⟨by decide, by decide⟩, C1_idf_formula _ _ _ (by decide) (by decide)⟩

/-- Characters a token may consist of: lowercase ASCII letter, digit or
hyphen (the kept non-whitespace characters of the substitution). -/
def tokChar (c : Char) : Bool :=
  ('a' ≤ c && c ≤ 'z') || ('0' ≤ c && c ≤ '9') || c = '-'

theorem splitWSAux_sound : ∀ (l cur t : List Char),
    (∀ c ∈ cur, isPySpace c = false) → t ∈ splitWSAux cur l →
      ∀ c ∈ t, (c ∈ cur ∨ c ∈ l) ∧ isPySpace c = false := by
  intro l
  induction l with
  | nil =>
    intro cur t hcur ht c hc
    unfold splitWSAux at ht
    split at ht
    · simp at ht
    · rw [List.mem_singleton] at ht
      subst ht
      rw [List.mem_reverse] at hc
      exact ⟨Or.inl hc, hcur c hc⟩
  | cons c0 cs ih =>
    intro cur t hcur ht c hc
    unfold splitWSAux at ht
    by_cases hsp : isPySpace c0 = true
    · rw [if_pos hsp] at ht
      split at ht
      · have := ih [] t (by simp) ht c hc
        refine ⟨?_, this.2⟩
        rcases this.1 with h | h
        · simp at h
        · exact Or.inr (List.mem_cons_of_mem _ h)
      · rcases List.mem_cons.mp ht with h | h
        · subst h
          rw [List.mem_reverse] at hc
          exact ⟨Or.inl hc, hcur c hc⟩
        · have := ih [] t (by simp) h c hc
          refine ⟨?_, this.2⟩
          rcases this.1 with h2 | h2
          · simp at h2
          · exact Or.inr (List.mem_cons_of_mem _ h2)
    · rw [if_neg hsp] at ht
      have hcur2 : ∀ d ∈ c0 :: cur, isPySpace d = false := by
        intro d hd
        rcases List.mem_cons.mp hd with h | h
        · subst h; simpa using hsp
        · exact hcur d h
      have := ih (c0 :: cur) t hcur2 ht c hc
      refine ⟨?_, this.2⟩
      rcases this.1 with h | h
      · rcases List.mem_cons.mp h with h2 | h2
        · exact Or.inr (h2 ▸ List.mem_cons_self _ _)
        · exact Or.inl h2
      · exact Or.inr (List.mem_cons_of_mem _ h)

theorem splitWSAux_ne_nil : ∀ (l cur t : List Char),
    t ∈ splitWSAux cur l → t ≠ [] := by
  intro l
  induction l with
  | nil =>
    intro cur t ht
    unfold splitWSAux at ht
    split at ht
    · simp at ht
    next hne =>
      rw [List.mem_singleton] at ht
      subst ht
      simp only [ne_eq, List.reverse_eq_nil_iff]
      simpa [List.isEmpty_iff] using hne
  | cons c0 cs ih =>
    intro cur t ht
    unfold splitWSAux at ht
    by_cases hsp : isPySpace c0 = true
    · rw [if_pos hsp] at ht
      split at ht
      · exact ih [] t ht
      next hne =>
        rcases List.mem_cons.mp ht with h | h
        · subst h
          simp only [ne_eq, List.reverse_eq_nil_iff]
          simpa [List.isEmpty_iff] using hne
        · exact ih [] t h
    · rw [if_neg hsp] at ht
      exact ih (c0 :: cur) t ht

/-- Every produced token is longer than two characters and made only of
lowercase letters, digits and hyphens. -/
theorem toks_mem (s t : List Char) (ht : t ∈ toks s) :
    2 < t.length ∧ ∀ c ∈ t, tokChar c = true := by
  unfold toks at ht
  rw [List.mem_filter] at ht
  obtain ⟨hmem, hlen⟩ := ht
  refine ⟨by simpa using hlen, ?_⟩
  intro c hc
  have hs := splitWSAux_sound _ [] t (by simp) hmem c hc
  have hcs : c ∈ (s.map Char.toLower).map (fun c => if keepTok c then c else ' ') := by
    rcases hs.1 with h | h
    · simp at h
    · exact h
  have hnsp := hs.2
  rw [List.mem_map] at hcs
  obtain ⟨d, _, hd⟩ := hcs
  by_cases hk : keepTok d = true
  · rw [if_pos hk] at hd
    subst hd
    unfold keepTok at hk
    unfold tokChar
    rcases Bool.or_eq_true_iff.mp hk with h | h
    · rcases Bool.or_eq_true_iff.mp h with h2 | h2
      · rcases Bool.or_eq_true_iff.mp h2 with h3 | h3
        · simp [h3]
        · simp [h3]
      · rw [h2] at hnsp
        simp at hnsp
    · simp [h]
  · rw [if_neg hk] at hd
    subst hd
    simp [isPySpace] at hnsp

/-- C6: tokenization keeps only tokens of length more than 2 made of the
kept characters, and the document-frequency counter counts exactly the
number of chunks whose token list contains the token, independent of how
often the token occurs within a chunk. -/
theorem C6_tokenization_df (s t : List Char) (cs : List (List Char))
    (w : List Char) (ht : t ∈ toks s) :
    (2 < t.length ∧ ∀ c ∈ t, tokChar c = true) ∧
    dfOf cs w = cs.countP (fun c => decide (w ∈ toks c)) :=
  ⟨toks_mem s t ht, dfOf_eq_countP cs w⟩

/-- Witness for C6: the token "alpha" of the text "alpha alpha beta!", and a
5-chunk list in which "alpha" occurs in every chunk (twice in one of them),
giving document frequency 5. -/
theorem C6_tokenization_df_witness :
    "alpha".toList ∈ toks "alpha alpha beta!".toList ∧
    ((2 < "alpha".toList.length ∧ ∀ c ∈ "alpha".toList, tokChar c = true) ∧
      dfOf ["the alpha one".toList, "alpha, alpha two".toList, "xx alpha".toList,
        "alpha".toList, "also alpha here".toList] "alpha".toList =
        (["the alpha one".toList, "alpha, alpha two".toList, "xx alpha".toList,
          "alpha".toList, "also alpha here".toList] : List (List Char)).countP
          (fun c => decide ("alpha".toList ∈ toks c))) ∧
    dfOf ["the alpha one".toList, "alpha, alpha two".toList, "xx alpha".toList,
      "alpha".toList, "also alpha here".toList] "alpha".toList = 5 :=
  ⟨by decide,
   C6_tokenization_df "alpha alpha beta!".toList "alpha".toList _ _ (by decide),
   by decide⟩

/-- C7: chunk ids are exactly the production positions: `id = k` for the
`k`-th produced record, hence `0 ≤ id < N`, pairwise distinct, and the pages
along the production order are nondecreasing (pages processed in order). -/
theorem C7_chunk_ids (order : List (List Char) → List (List Char))
    (pages : List (Option (List Char))) (j k : Nat)
    (hj : j < (mainChunks order pages).length)
    (hk : k < (mainChunks order pages).length) :
    (mainChunks order pages)[k].id = k ∧
    (mainChunks order pages)[k].id < (mainChunks order pages).length ∧
    (j ≠ k → (mainChunks order pages)[j].id ≠ (mainChunks order pages)[k].id) ∧
    (j ≤ k → (mainChunks order pages)[j].page ≤ (mainChunks order pages)[k].page) := by
  have hid : ∀ m (hm : m < (mainChunks order pages).length),
      (mainChunks order pages)[m].id = m := by
    intro m hm
    obtain ⟨hp, hrec⟩ := mainChunks_getElem order pages m hm
    rw [hrec]
    rfl
  have hpage : ∀ m (hm : m < (mainChunks order pages).length),
      ∃ hp : m < (pageRecords pages).length,
        (mainChunks order pages)[m].page = ((pageRecords pages).get ⟨m, hp⟩).1 := by
    intro m hm
    obtain ⟨hp, hrec⟩ := mainChunks_getElem order pages m hm
    exact ⟨hp, by rw [hrec]; rfl⟩
  refine ⟨hid k hk, ?_, ?_, ?_⟩
  · rw [hid k hk]; exact hk
  · intro hne
    rw [hid j hj, hid k hk]
    exact hne
  · intro hjk
    obtain ⟨hpj, hj2⟩ := hpage j hj
    obtain ⟨hpk, hk2⟩ := hpage k hk
    rw [hj2, hk2]
    rcases Nat.lt_or_ge j k with hlt | hge
    · exact List.pairwise_iff_getElem.mp (pageRecords_pairwise pages) j k hpj hpk hlt
    · have : j = k := by omega
      subst this
      exact le_refl _

/-- Two short pages yield exactly one record per page, in page order. -/
theorem pageRecords_pair (t1 t2 : List Char)
    (h1 : clean t1 ≠ []) (hle1 : (clean t1).length ≤ CHUNK_SIZE)
    (h2 : clean t2 ≠ []) (hle2 : (clean t2).length ≤ CHUNK_SIZE) :
    pageRecords [some t1, some t2] = [(1, clean t1), (2, clean t2)] := by
  unfold pageRecords
  have hr : List.range (List.length [some t1, some t2]) = [0, 1] := rfl
  have hc1 : chunk t1 1 = [(1, clean t1)] := by
    unfold chunk
    rw [chunkFrom_short _ h1 hle1]
    rfl
  have hc2 : chunk t2 2 = [(2, clean t2)] := by
    unfold chunk
    rw [chunkFrom_short _ h2 hle2]
    rfl
  rw [hr, List.flatMap_cons, List.flatMap_cons, List.flatMap_nil]
  show chunk t1 1 ++ (chunk t2 2 ++ []) = _
  rw [hc1, hc2]
  rfl

/-- The sample two-page input used by C7's witness. -/
def samplePages : List (Option (List Char)) :=
  [some "one page".toList, some "two page".toList]

theorem samplePages_length :
    (mainChunks (fun xs => xs.dedup) samplePages).length = 2 := by
  rw [mainChunks_length]
  unfold samplePages
  rw [pageRecords_pair _ _ (by decide) (by decide) (by decide) (by decide)]
  rfl

/-- Witness for C7 on a two-page input producing one chunk per page. -/
theorem C7_chunk_ids_witness :
    (0 < (mainChunks (fun xs => xs.dedup) samplePages).length ∧
     1 < (mainChunks (fun xs => xs.dedup) samplePages).length) ∧
    (((mainChunks (fun xs => xs.dedup) samplePages).get
        ⟨1, by rw [samplePages_length]; omega⟩).id = 1 ∧
    ((mainChunks (fun xs => xs.dedup) samplePages).get
        ⟨1, by rw [samplePages_length]; omega⟩).id <
      (mainChunks (fun xs => xs.dedup) samplePages).length ∧
    ((0 : Nat) ≠ 1 →
      ((mainChunks (fun xs => xs.dedup) samplePages).get
        ⟨0, by rw [samplePages_length]; omega⟩).id ≠
      ((mainChunks (fun xs => xs.dedup) samplePages).get
        ⟨1, by rw [samplePages_length]; omega⟩).id) ∧
    ((0 : Nat) ≤ 1 →
      ((mainChunks (fun xs => xs.dedup) samplePages).get
        ⟨0, by rw [samplePages_length]; omega⟩).page ≤
      ((mainChunks (fun xs => xs.dedup) samplePages).get
        ⟨1, by rw [samplePages_length]; omega⟩).page)) :=
  ⟨⟨by rw [samplePages_length]; omega, by rw [samplePages_length]; omega⟩,
   C7_chunk_ids (fun xs => xs.dedup) samplePages 0 1
     (by rw [samplePages_length]; omega) (by rw [samplePages_length]; omega)⟩

/-- C9: a page whose extraction yields `None` or the empty string
contributes zero chunks and leaves the chunk list and every
document-frequency count unchanged; the pipeline handles it as a total
function, not an error path. -/
theorem C9_empty_page (order : List (List Char) → List (List Char))
    (pages : List (Option (List Char))) (p : Nat) (hp : p < pages.length)
    (he : pages[p]? = some none ∨ pages[p]? = some (some [])) :
    chunk ((pages[p]?.getD none).getD []) (p + 1) = [] ∧
    mainChunks order pages = mainChunks order (pages.set p none) ∧
    (∀ w, dfOf ((mainChunks order pages).map (fun c => c.text)) w =
      dfOf ((mainChunks order (pages.set p none)).map (fun c => c.text)) w) := by
  have hraw : ((pages[p]?.getD none).getD []) = [] := by
    rcases he with h | h <;> rw [h] <;> rfl
  have h1 : chunk ((pages[p]?.getD none).getD []) (p + 1) = [] := by
    rw [hraw]
    exact chunk_nil _
  have h2 : pageRecords pages = pageRecords (pages.set p none) := by
    unfold pageRecords
    rw [List.length_set]
    rw [List.flatMap_def, List.flatMap_def]
    congr 1
    apply List.map_congr_left
    intro q hq
    by_cases hqp : q = p
    · subst hqp
      rw [List.getElem?_set_eq_of_lt _ hp]
      rw [h1]
      exact (chunk_nil _).symm
    · rw [List.getElem?_set_ne (fun h => hqp h.symm)]
  have h3 : mainChunks order pages = mainChunks order (pages.set p none) := by
    rw [mainChunks_eq_enum, mainChunks_eq_enum, h2]
  exact ⟨h1, h3, fun w => by rw [h3]⟩

/-- Witness for C9: a `None` extraction as the second of two pages. -/
theorem C9_empty_page_witness :
    (1 < ([some "hello world".toList, none] : List (Option (List Char))).length ∧
     (([some "hello world".toList, none] : List (Option (List Char)))[1]? = some none ∨
      ([some "hello world".toList, none] : List (Option (List Char)))[1]? = some (some []))) ∧
    (chunk ((([some "hello world".toList, none] : List (Option (List Char)))[1]?.getD none).getD [])
        (1 + 1) = [] ∧
    mainChunks (fun xs => xs.dedup) [some "hello world".toList, none] =
      mainChunks (fun xs => xs.dedup)
        (([some "hello world".toList, none] : List (Option (List Char))).set 1 none) ∧
    (∀ w, dfOf ((mainChunks (fun xs => xs.dedup) [some "hello world".toList, none]).map
        (fun c => c.text)) w =
      dfOf ((mainChunks (fun xs => xs.dedup)
        (([some "hello world".toList, none] : List (Option (List Char))).set 1 none)).map
        (fun c => c.text)) w)) :=
  ⟨⟨by decide, Or.inl (by decide)⟩,
   C9_empty_page (fun xs => xs.dedup) [some "hello world".toList, none] 1
     (by decide) (Or.inl (by decide))⟩

/-- The scenario page text of C8. -/
def scnText : List Char :=
  "Sector Alpha was claimed by the Alliance on 2024-03-01. Expansion continued.".toList

/-- C8: on the scenario page the pipeline produces a single chunk whose
dates entity set is exactly {"2024-03-01"} and whose factions entity set is
exactly {"Alliance"} (singleton sets, so every valid set order emits the
same one-element list). -/
theorem C8_entity_scenario (order : List (List Char) → List (List Char))
    (ho : SetOrder order) :
    (mainChunks order [some scnText]).length = 1 ∧
    (mainChunks order [some scnText]).head?.map (fun c => c.dates) =
      some ["2024-03-01".toList] ∧
    (mainChunks order [some scnText]).head?.map (fun c => c.factions) =
      some ["Alliance".toList] := by
  have hm : mainChunks order [some scnText] = [tagChunk order 0 (1, clean scnText)] :=
    mainChunks_single order scnText (by decide) (by decide)
  have hcl : clean scnText = scnText := by decide
  have hd : findall DATE_RE scnText = ["2024-03-01".toList] := by decide
  have hf : findall FACTION_RE scnText = ["Alliance".toList] := by decide
  rw [hm, hcl]
  refine ⟨rfl, ?_, ?_⟩
  · show some (tagChunk order 0 (1, scnText)).dates = some ["2024-03-01".toList]
    unfold tagChunk
    rw [hd]
    have hperm := ho ["2024-03-01".toList]
    have : ["2024-03-01".toList].dedup = ["2024-03-01".toList] := by decide
    rw [this] at hperm
    rw [List.perm_singleton.mp hperm]
  · show some (tagChunk order 0 (1, scnText)).factions = some ["Alliance".toList]
    unfold tagChunk
    rw [hf]
    have hperm := ho ["Alliance".toList]
    have : ["Alliance".toList].dedup = ["Alliance".toList] := by decide
    rw [this] at hperm
    rw [List.perm_singleton.mp hperm]

/-- Witness for C8 with the dedup order (identity set enumeration). -/
theorem C8_entity_scenario_witness :
    SetOrder (fun xs => xs.dedup) ∧
    ((mainChunks (fun xs => xs.dedup) [some scnText]).length = 1 ∧
    (mainChunks (fun xs => xs.dedup) [some scnText]).head?.map (fun c => c.dates) =
      some ["2024-03-01".toList] ∧
    (mainChunks (fun xs => xs.dedup) [some scnText]).head?.map (fun c => c.factions) =
      some ["Alliance".toList]) :=
  ⟨fun s => List.Perm.refl s.dedup,
   C8_entity_scenario (fun xs => xs.dedup) (fun s => List.Perm.refl s.dedup)⟩

/-! ### Serialization of the chunk store

`json.dump(chunks, open("data/bgs_chunks.json","w",encoding="utf-8"),
ensure_ascii=False)` with the default separators: a list is
`[item, item, ...]`, an object is written with its keys in insertion order
(`id, page, systems, factions, dates, text`), strings are quoted with the
standard JSON escapes and, as `ensure_ascii=False`, other characters kept
verbatim. -/

def hexDigit (n : Nat) : Char :=
  if n < 10 then Char.ofNat (48 + n) else Char.ofNat (87 + n)

def jescape (c : Char) : List Char :=
  if c = '"' then ['\\', '"']
  else if c = '\\' then ['\\', '\\']
  else if c = '\x08' then ['\\', 'b']
  else if c = '\x0c' then ['\\', 'f']
  else if c = '\n' then ['\\', 'n']
  else if c = '\r' then ['\\', 'r']
  else if c = '\t' then ['\\', 't']
  else if c.toNat < 32 then
    ['\\', 'u', '0', '0', hexDigit ((c.toNat / 16) % 16), hexDigit (c.toNat % 16)]
  else [c]

def jstr (s : List Char) : List Char :=
  '"' :: s.flatMap jescape ++ ['"']

def jnat (n : Nat) : List Char := (Nat.repr n).toList

def jstrList (xs : List (List Char)) : List Char :=
  '[' :: List.intercalate ", ".toList (xs.map jstr) ++ [']']

def jfield (key : List Char) (v : List Char) : List Char :=
  jstr key ++ ':' :: ' ' :: v

def serializeChunk (c : ChunkRec) : List Char :=
  '\x7b' :: List.intercalate ", ".toList
    [jfield "id".toList (jnat c.id),
     jfield "page".toList (jnat c.page),
     jfield "systems".toList (jstrList c.systems),
     jfield "factions".toList (jstrList c.factions),
     jfield "dates".toList (jstrList c.dates),
     jfield "text".toList (jstr c.text)] ++ ['\x7d']

/-- The byte content of the chunk-store file. -/
def serializeChunks (cs : List ChunkRec) : List Char :=
  '[' :: List.intercalate ", ".toList (cs.map serializeChunk) ++ [']']

/-- The counterexample page text for C2: its faction set has two elements. -/
def cexText : List Char := "Alliance and Empire fleets moved.".toList

/-- Counterexample to C2 as stated: two runs of the pipeline on the same
input, differing only in the (unspecified, hash-seed dependent) iteration
order of Python sets, serialize the chunk store to different bytes, because
`list(set(...))` order reaches the output.  Both orders are valid
`list(set(...))` enumerations. -/
theorem C2_not_byte_deterministic :
    SetOrder (fun xs => xs.dedup) ∧
    SetOrder (fun xs => xs.dedup.reverse) ∧
    serializeChunks (mainChunks (fun xs => xs.dedup) [some cexText]) ≠
      serializeChunks (mainChunks (fun xs => xs.dedup.reverse) [some cexText]) := by
  refine ⟨fun s => List.Perm.refl s.dedup, fun s => List.reverse_perm s.dedup, ?_⟩
  rw [mainChunks_single _ _ (by decide) (by decide),
    mainChunks_single _ _ (by decide) (by decide)]
  decide

/-- C2 amended: the pipeline is deterministic in everything except the
enumeration order of the entity sets (and of the idf mapping's keys): for
any two valid set orders, the two runs agree on chunk count, ids, pages and
texts, their entity sets agree as sets (up to permutation), and every
document-frequency count (hence every idf value) coincides. -/
theorem C2_deterministic_up_to_set_order
    (o1 o2 : List (List Char) → List (List Char))
    (h1 : SetOrder o1) (h2 : SetOrder o2)
    (pages : List (Option (List Char))) :
    (mainChunks o1 pages).map (fun c => (c.id, c.page, c.text)) =
      (mainChunks o2 pages).map (fun c => (c.id, c.page, c.text)) ∧
    (mainChunks o1 pages).length = (mainChunks o2 pages).length ∧
    (∀ k (hk1 : k < (mainChunks o1 pages).length)
        (hk2 : k < (mainChunks o2 pages).length),
      ((mainChunks o1 pages)[k].systems).Perm ((mainChunks o2 pages)[k].systems) ∧
      ((mainChunks o1 pages)[k].factions).Perm ((mainChunks o2 pages)[k].factions) ∧
      ((mainChunks o1 pages)[k].dates).Perm ((mainChunks o2 pages)[k].dates)) ∧
    (∀ w, dfOf ((mainChunks o1 pages).map (fun c => c.text)) w =
      dfOf ((mainChunks o2 pages).map (fun c => c.text)) w) := by
  have hproj : (mainChunks o1 pages).map (fun c => (c.id, c.page, c.text)) =
      (mainChunks o2 pages).map (fun c => (c.id, c.page, c.text)) := by
    rw [mainChunks_eq_enum, mainChunks_eq_enum, List.map_map, List.map_map]
    rfl
  have htext : (mainChunks o1 pages).map (fun c => c.text) =
      (mainChunks o2 pages).map (fun c => c.text) := by
    rw [mainChunks_eq_enum, mainChunks_eq_enum, List.map_map, List.map_map]
    rfl
  refine ⟨hproj, ?_, ?_, fun w => by rw [htext]⟩
  · rw [mainChunks_length, mainChunks_length]
  · intro k hk1 hk2
    obtain ⟨hp1, hr1⟩ := mainChunks_getElem o1 pages k hk1
    obtain ⟨hp2, hr2⟩ := mainChunks_getElem o2 pages k hk2
    rw [hr1, hr2]
    unfold tagChunk
    refine ⟨?_, ?_, ?_⟩ <;>
      exact ((h1 _).trans (h2 _).symm)

/-- Witness for the amended C2 at the counterexample input and two concrete
valid set orders. -/
theorem C2_deterministic_up_to_set_order_witness :
    (SetOrder (fun xs => xs.dedup) ∧ SetOrder (fun xs => xs.dedup.reverse)) ∧
    ((mainChunks (fun xs => xs.dedup) [some cexText]).map (fun c => (c.id, c.page, c.text)) =
      (mainChunks (fun xs => xs.dedup.reverse) [some cexText]).map (fun c => (c.id, c.page, c.text)) ∧
    (mainChunks (fun xs => xs.dedup) [some cexText]).length =
      (mainChunks (fun xs => xs.dedup.reverse) [some cexText]).length ∧
    (∀ k (hk1 : k < (mainChunks (fun xs => xs.dedup) [some cexText]).length)
        (hk2 : k < (mainChunks (fun xs => xs.dedup.reverse) [some cexText]).length),
      ((mainChunks (fun xs => xs.dedup) [some cexText])[k].systems).Perm
        ((mainChunks (fun xs => xs.dedup.reverse) [some cexText])[k].systems) ∧
      ((mainChunks (fun xs => xs.dedup) [some cexText])[k].factions).Perm
        ((mainChunks (fun xs => xs.dedup.reverse) [some cexText])[k].factions) ∧
      ((mainChunks (fun xs => xs.dedup) [some cexText])[k].dates).Perm
        ((mainChunks (fun xs => xs.dedup.reverse) [some cexText])[k].dates)) ∧
    (∀ w, dfOf ((mainChunks (fun xs => xs.dedup) [some cexText]).map (fun c => c.text)) w =
      dfOf ((mainChunks (fun xs => xs.dedup.reverse) [some cexText]).map (fun c => c.text)) w)) :=
  ⟨⟨fun s => List.Perm.refl s.dedup, fun s => List.reverse_perm s.dedup⟩,
   C2_deterministic_up_to_set_order (fun xs => xs.dedup) (fun xs => xs.dedup.reverse)
     (fun s => List.Perm.refl s.dedup) (fun s => List.reverse_perm s.dedup) [some cexText]⟩

end BGS
